import Mathlib

/-!
Shallow embedding of the merkle_proof repository (src/src/proof/):
types.rs, page_cache.rs, multiproof.rs, merkle_proof.rs.

Modelling conventions:
- Machine integers (u64, usize) are Nat; the values involved stay far below
  any overflow boundary across all reachable states considered here.
- The Keccak-256 primitive is an external collaborator; it is passed to each
  operation as a parameter keccak : List Nat -> ProofHash, applied to the raw
  page bytes for leaves and to the concatenation of two digests for internal
  nodes, exactly as the Rust code does.
- A Rust Vec is a List stored in the same order; Vec::pop reads and removes
  the last element (List.getLast?, List.dropLast).
- Operations that can panic (unwrap, out-of-bounds indexing, division by
  zero) return Option; none models a panic.
- Rust's stable sort_by with the reversed address comparator is modelled by a
  stable insertion sort; a stable sort under a total comparator is determined
  extensionally, so this is the same function on lists of pages.
-/

/-- types.rs: pub const MEMORY_LOG2_SIZE: usize = 5. -/
def MEMORY_LOG2_SIZE : Nat := 5

/-- types.rs: pub const PAGE_LOG2_SIZE: usize = 2. -/
def PAGE_LOG2_SIZE : Nat := 2

/-- types.rs: pub const HASH_SIZE: usize = 32. -/
def HASH_SIZE : Nat := 32

/-- types.rs: pub type PageData = [u8; 1 << PAGE_LOG2_SIZE] (bytes as Nat). -/
abbrev PageData := List Nat

/-- types.rs: pub type ProofHash = [u8; HASH_SIZE] (bytes as Nat). -/
abbrev ProofHash := List Nat

/-- types.rs: pub type PageAddress = u64. -/
abbrev PageAddress := Nat

/-- page_cache.rs: struct Page { data, address: PageAddress };
the field type is written Nat (= PageAddress) directly. -/
structure Page where
  data : PageData
  address : Nat
deriving DecidableEq, Repr

/-- page_cache.rs: Page::hash computes Keccak-256 of the page data. -/
def Page.hash (keccak : List Nat → ProofHash) (p : Page) : ProofHash :=
  keccak p.data

/-- page_cache.rs: struct PageCache { pages: Vec<Page> }. -/
structure PageCache where
  pages : List Page
deriving DecidableEq, Repr

/-- Stable insertion of a page into a list sorted by descending address;
together with sortPagesDesc this models Rust's stable
pages.sort_by(|a, b| a.address.cmp(&b.address).reverse()). -/
def insertPageDesc (p : Page) : List Page → List Page
  | [] => [p]
  | q :: qs => if q.address ≤ p.address then p :: q :: qs else q :: insertPageDesc p qs

/-- Stable sort of pages by descending address (see insertPageDesc). -/
def sortPagesDesc : List Page → List Page
  | [] => []
  | p :: ps => insertPageDesc p (sortPagesDesc ps)

/-- page_cache.rs: PageCache::new sorts the pages by address in descending
order so that the first page is obtained by popping the last element. -/
def PageCache.new (pages : List Page) : PageCache :=
  ⟨sortPagesDesc pages⟩

/-- page_cache.rs: PageCache::get_next, self.pages.pop(); returns the popped
page together with the cache state after the pop. -/
def PageCache.get_next (c : PageCache) : Option (Page × PageCache) :=
  match c.pages.getLast? with
  | some page => some (page, ⟨c.pages.dropLast⟩)
  | none => none

/-- page_cache.rs: PageCache::has_next,
self.pages.last().map_or(false, |page| page.address == address). -/
def PageCache.has_next (c : PageCache) (address : PageAddress) : Bool :=
  match c.pages.getLast? with
  | some page => page.address == address
  | none => false

/-- multiproof.rs: struct MultiproofEntry { address_low, address_high:
PageAddress, hash }; the field types are written Nat (= PageAddress) directly. -/
structure MultiproofEntry where
  address_low : Nat
  address_high : Nat
  hash : ProofHash
deriving DecidableEq, Repr

/-- multiproof.rs: struct Multiproof { hashes: Vec<MultiproofEntry> };
there is no constructor, the field is public and used as supplied. -/
structure Multiproof where
  hashes : List MultiproofEntry
deriving DecidableEq, Repr

/-- multiproof.rs: Multiproof::get_next, self.hashes.pop(). -/
def Multiproof.get_next (m : Multiproof) : Option (MultiproofEntry × Multiproof) :=
  match m.hashes.getLast? with
  | some entry => some (entry, ⟨m.hashes.dropLast⟩)
  | none => none

/-- multiproof.rs: Multiproof::has_next, true iff the last (next-to-pop)
entry has exactly the queried inclusive range. -/
def Multiproof.has_next (m : Multiproof) (address_low address_high : PageAddress) : Bool :=
  match m.hashes.getLast? with
  | some entry => entry.address_low == address_low && entry.address_high == address_high
  | none => false

/-- merkle_proof.rs: struct MerkleProof { tree, page_cache, multiproof };
a tree slot some h is a known hash, none is an unknown slot. -/
structure MerkleProof where
  tree : List (Option ProofHash)
  page_cache : PageCache
  multiproof : Multiproof
deriving DecidableEq, Repr

/-- merkle_proof.rs: MerkleProof::new (reserve only affects capacity). -/
def MerkleProof.new (page_cache : PageCache) (multiproof : Multiproof) : MerkleProof :=
  { tree := [], page_cache := page_cache, multiproof := multiproof }

/-- merkle_proof.rs: MerkleProof::merge_hashes, Keccak-256 of the
concatenation of the left and right child hashes, in that order. -/
def MerkleProof.merge_hashes (keccak : List Nat → ProofHash) (left right : ProofHash) : ProofHash :=
  keccak (left ++ right)

/-- The page addresses visited by the init loop
(page_address = 0; while page_address < 1 << MEMORY_LOG2_SIZE;
page_address += 1 << PAGE_LOG2_SIZE): one address per leaf slot. -/
def leafAddresses : List PageAddress :=
  (List.range ((1 <<< MEMORY_LOG2_SIZE) / (1 <<< PAGE_LOG2_SIZE))).map
    (fun i => i * (1 <<< PAGE_LOG2_SIZE))

/-- merkle_proof.rs: body of MerkleProof::init, iterated over the remaining
leaf addresses. Each unwrap is modelled by a match whose none arm is a panic
(the overall none); each iteration pushes exactly one slot. -/
def MerkleProof.initLoop (keccak : List Nat → ProofHash) : MerkleProof → List PageAddress → Option MerkleProof
  | s, [] => some s
  | s, page_address :: rest =>
    if s.page_cache.has_next page_address then
      match s.page_cache.get_next with
      | some (page, pc') =>
          MerkleProof.initLoop keccak
            { tree := s.tree ++ [some (Page.hash keccak page)]
              page_cache := pc', multiproof := s.multiproof } rest
      | none => none
    else if s.multiproof.has_next page_address page_address then
      match s.multiproof.get_next with
      | some (entry, mp') =>
          MerkleProof.initLoop keccak
            { tree := s.tree ++ [some entry.hash]
              page_cache := s.page_cache, multiproof := mp' } rest
      | none => none
    else
      MerkleProof.initLoop keccak
        { tree := s.tree ++ [none]
          page_cache := s.page_cache, multiproof := s.multiproof } rest

/-- merkle_proof.rs: MerkleProof::init. -/
def MerkleProof.init (keccak : List Nat → ProofHash) (s : MerkleProof) : Option MerkleProof :=
  MerkleProof.initLoop keccak s leafAddresses

/-- merkle_proof.rs: the for loop of MerkleProof::bubble_up over
read_range.zip(write_range), i.e. over pairs (r, w) = (2*w, w); steps is the
number of remaining iterations, w the current write index. Reads tree[2*w]
and tree[2*w+1] (none of the outer match models an out-of-bounds panic),
merges two known children, otherwise consults the multiproof for the
parent's exact range; writes the parent in place at index w. -/
def MerkleProof.bubbleLoop (keccak : List Nat → ProofHash) (entry_size : Nat) :
    Nat → Nat → List (Option ProofHash) → Multiproof →
    Option (List (Option ProofHash) × Multiproof)
  | _, 0, tree, mp => some (tree, mp)
  | w, steps + 1, tree, mp =>
    match tree.get? (2 * w), tree.get? (2 * w + 1) with
    | some left, some right =>
      match left, right with
      | some left_hash, some right_hash =>
          MerkleProof.bubbleLoop keccak entry_size (w + 1) steps
            (tree.set w (some (MerkleProof.merge_hashes keccak left_hash right_hash))) mp
      | _, _ =>
          if mp.has_next (w * entry_size) (w * entry_size + entry_size - 1) then
            match mp.get_next with
            | some (entry, mp') =>
                MerkleProof.bubbleLoop keccak entry_size (w + 1) steps
                  (tree.set w (some entry.hash)) mp'
            | none => none
          else
            MerkleProof.bubbleLoop keccak entry_size (w + 1) steps (tree.set w none) mp
    | _, _ => none

/-- merkle_proof.rs: MerkleProof::bubble_up. entry_size is
(1 << MEMORY_LOG2_SIZE) / (len >> 1); a zero divisor is a division-by-zero
panic (none). The loop runs over (0..len).step_by(2).zip(0..len), i.e.
min((len+1)/2, len) iterations, then the tree is truncated to half length. -/
def MerkleProof.bubble_up (keccak : List Nat → ProofHash) (s : MerkleProof) : Option MerkleProof :=
  if s.tree.length >>> 1 = 0 then none
  else
    match MerkleProof.bubbleLoop keccak ((1 <<< MEMORY_LOG2_SIZE) / (s.tree.length >>> 1))
        0 (Nat.min ((s.tree.length + 1) / 2) s.tree.length) s.tree s.multiproof with
    | some (tree', mp') =>
        some { tree := tree'.take (tree'.length >>> 1)
               page_cache := s.page_cache, multiproof := mp' }
    | none => none

/-- merkle_proof.rs: the while self.tree.len() > 1 loop of calculate_root.
fuel bounds the number of iterations; the caller passes the tree length,
which provably dominates the halving iteration count, so fuel exhaustion
never occurs on a run whose bubble_up calls all succeed. -/
def MerkleProof.reduceLoop (keccak : List Nat → ProofHash) : Nat → MerkleProof → Option MerkleProof
  | 0, _ => none
  | fuel + 1, s =>
    if 1 < s.tree.length then
      match MerkleProof.bubble_up keccak s with
      | some s' => MerkleProof.reduceLoop keccak fuel s'
      | none => none
    else some s

/-- merkle_proof.rs: MerkleProof::calculate_root. Ok/Err is Except.ok /
Except.error (the Rust error type is ()); the final self.tree[0] indexing of
a possibly empty tree is modelled by get? (none arm = panic). The final
MerkleProof state is returned alongside the result. -/
def MerkleProof.calculate_root (keccak : List Nat → ProofHash) (s : MerkleProof) :
    Option (Except Unit ProofHash × MerkleProof) :=
  match MerkleProof.init keccak s with
  | some s1 =>
    match MerkleProof.reduceLoop keccak s1.tree.length s1 with
    | some s2 =>
      match s2.tree.get? 0 with
      | some (some hash) => some (Except.ok hash, s2)
      | some none => some (Except.error (), s2)
      | none => none
    | none => none
  | none => none

/-- Modelled from the spec's leaf-build description, multiproof part: if the
Multiproof's next (last-stored) entry matches the single-leaf range
(addr, addr), take its hash and consume it; else the slot is Unknown. -/
def specLeafStepMp (a : PageAddress) (pc : PageCache) (mp : Multiproof) :
    Option ProofHash × PageCache × Multiproof :=
  match mp.hashes.getLast? with
  | some entry =>
    if entry.address_low = a ∧ entry.address_high = a then
      (some entry.hash, pc, ⟨mp.hashes.dropLast⟩)
    else (none, pc, mp)
  | none => (none, pc, mp)

/-- Modelled from the spec's leaf-build description, one scanned address: if
the PageCache's next (last-stored) page has this address, take its page hash
and consume it; else defer to the multiproof; else Unknown. -/
def specLeafStep (keccak : List Nat → ProofHash) (a : PageAddress) (pc : PageCache) (mp : Multiproof) :
    Option ProofHash × PageCache × Multiproof :=
  match pc.pages.getLast? with
  | some page =>
    if page.address = a then (some (Page.hash keccak page), ⟨pc.pages.dropLast⟩, mp)
    else specLeafStepMp a pc mp
  | none => specLeafStepMp a pc mp

/-- Modelled from the spec's leaf-build description: scan the given leaf
addresses in order, producing one slot per address plus final source states. -/
def specLeafBuild (keccak : List Nat → ProofHash) :
    List PageAddress → PageCache → Multiproof →
    List (Option ProofHash) × PageCache × Multiproof
  | [], pc, mp => ([], pc, mp)
  | a :: rest, pc, mp =>
    match specLeafStep keccak a pc mp with
    | (slot, pc', mp') =>
      match specLeafBuild keccak rest pc' mp' with
      | (slots, pc'', mp'') => (slot :: slots, pc'', mp'')

/-- Concrete stand-in for the Keccak-256 collaborator, used in witnesses. -/
def kW : List Nat → ProofHash := fun l => [l.length, l.sum]

/-- Witness page at the page-unaligned address 2: never matched by the scan. -/
def pageCex : Page := ⟨[9, 9, 9, 9], 2⟩

/-- Witness pages covering all eight leaf addresses, in scrambled order. -/
def pagesW : List Page :=
  [⟨[5, 6], 8⟩, ⟨[1], 0⟩, ⟨[2], 4⟩, ⟨[3], 12⟩, ⟨[4], 16⟩, ⟨[7], 20⟩, ⟨[8], 24⟩, ⟨[9, 9], 28⟩]

/-- Witness state for the merge step: two known children. -/
def sW2 : MerkleProof := ⟨[some [1], some [2]], ⟨[]⟩, ⟨[]⟩⟩

/-- Witness result state for the merge step (kW ([1] ++ [2]) = [2, 3]). -/
def sW2' : MerkleProof := ⟨[some [2, 3]], ⟨[]⟩, ⟨[]⟩⟩

/-- Witness tree level with an unknown left child. -/
def treeW3 : List (Option ProofHash) := [none, some [1]]

/-- Witness multiproof holding the parent-range entry (0, 7). -/
def mpW3 : Multiproof := ⟨[⟨0, 7, [42]⟩]⟩

/-- Witness multiproof entries for the consumption-order claim. -/
def entryA : MultiproofEntry := ⟨0, 0, [1]⟩

/-- Second witness multiproof entry for the consumption-order claim. -/
def entryB : MultiproofEntry := ⟨4, 4, [2]⟩

/-! ## Basic facts about the lookahead-then-consume protocol of both sources -/

lemma mem_of_getLast? {α : Type _} {l : List α} {a : α} (h : l.getLast? = some a) : a ∈ l := by
  obtain ⟨l', rfl⟩ := List.getLast?_eq_some_iff.mp h
  simp

lemma dropLast_mem {α : Type _} {l : List α} {a : α} (h : a ∈ l.dropLast) : a ∈ l := by
  rw [List.dropLast_eq_take] at h
  exact List.take_subset _ _ h

lemma dropLast_take_ex {α : Type _} (l : List α) (n : Nat) :
    ∃ m, (l.take n).dropLast = l.take m := by
  refine ⟨Nat.min ((l.take n).length - 1) n, ?_⟩
  rw [List.dropLast_eq_take, List.take_take]

lemma PageCache.has_next_true {c : PageCache} {a : PageAddress} (h : c.has_next a = true) :
    ∃ p, c.pages.getLast? = some p ∧ p.address = a := by
  unfold PageCache.has_next at h
  split at h
  next p hp => exact ⟨p, hp, by simpa using h⟩
  next => simp at h

lemma PageCache.get_next_of_getLast? {c : PageCache} {p : Page}
    (h : c.pages.getLast? = some p) : c.get_next = some (p, ⟨c.pages.dropLast⟩) := by
  unfold PageCache.get_next
  rw [h]

lemma Multiproof.has_next_matches {m : Multiproof} {lo hi : PageAddress}
    (h : m.has_next lo hi = true) :
    ∃ e, m.hashes.getLast? = some e ∧ e.address_low = lo ∧ e.address_high = hi := by
  unfold Multiproof.has_next at h
  split at h
  next e he =>
    refine ⟨e, he, ?_, ?_⟩ <;> simp_all
  next => simp at h

lemma Multiproof.has_next_iff {m : Multiproof} {lo hi : PageAddress} :
    m.has_next lo hi = true ↔
      ∃ e, m.hashes.getLast? = some e ∧ e.address_low = lo ∧ e.address_high = hi := by
  constructor
  · exact Multiproof.has_next_matches
  · rintro ⟨e, he, rfl, rfl⟩
    unfold Multiproof.has_next
    rw [he]
    simp

lemma Multiproof.get_next_getLast {m : Multiproof} {e : MultiproofEntry}
    (h : m.hashes.getLast? = some e) : m.get_next = some (e, ⟨m.hashes.dropLast⟩) := by
  unfold Multiproof.get_next
  rw [h]

lemma Multiproof.get_next_some {m : Multiproof} {e : MultiproofEntry} {m' : Multiproof}
    (h : m.get_next = some (e, m')) : m.hashes = m'.hashes ++ [e] := by
  unfold Multiproof.get_next at h
  split at h
  next e' he =>
    obtain ⟨l', hl⟩ := List.getLast?_eq_some_iff.mp he
    cases h
    simp [hl, List.dropLast_concat]
  next => cases h

/-! ## Leaf-build phase: the code loop implements the scan description -/

lemma specLeafBuild_cons (keccak : List Nat → ProofHash) (a : PageAddress)
    (rest : List PageAddress) (pc : PageCache) (mp : Multiproof) :
    specLeafBuild keccak (a :: rest) pc mp =
      ((specLeafStep keccak a pc mp).1 ::
        (specLeafBuild keccak rest (specLeafStep keccak a pc mp).2.1
          (specLeafStep keccak a pc mp).2.2).1,
       (specLeafBuild keccak rest (specLeafStep keccak a pc mp).2.1
          (specLeafStep keccak a pc mp).2.2).2) := rfl

lemma specLeafStep_cache (keccak : List Nat → ProofHash) {a : PageAddress}
    {pc : PageCache} (mp : Multiproof) {p : Page}
    (hp : pc.pages.getLast? = some p) (hpa : p.address = a) :
    specLeafStep keccak a pc mp = (some (Page.hash keccak p), ⟨pc.pages.dropLast⟩, mp) := by
  unfold specLeafStep
  rw [hp]
  simp [hpa]

lemma specLeafStep_of_not_cache (keccak : List Nat → ProofHash) {a : PageAddress}
    {pc : PageCache} (mp : Multiproof) (h : pc.has_next a = false) :
    specLeafStep keccak a pc mp = specLeafStepMp a pc mp := by
  unfold PageCache.has_next at h
  unfold specLeafStep
  cases hp : pc.pages.getLast? with
  | none => rfl
  | some p =>
    rw [hp] at h
    have : p.address ≠ a := by simpa using h
    simp [this]

lemma specLeafStepMp_hit {a : PageAddress} (pc : PageCache) {mp : Multiproof}
    {e : MultiproofEntry} (he : mp.hashes.getLast? = some e)
    (h1 : e.address_low = a) (h2 : e.address_high = a) :
    specLeafStepMp a pc mp = (some e.hash, pc, ⟨mp.hashes.dropLast⟩) := by
  unfold specLeafStepMp
  rw [he]
  simp [h1, h2]

lemma specLeafStepMp_miss {a : PageAddress} (pc : PageCache) {mp : Multiproof}
    (h : mp.has_next a a = false) :
    specLeafStepMp a pc mp = (none, pc, mp) := by
  unfold Multiproof.has_next at h
  unfold specLeafStepMp
  cases he : mp.hashes.getLast? with
  | none => rfl
  | some e =>
    rw [he] at h
    have : ¬(e.address_low = a ∧ e.address_high = a) := by
      intro ⟨h1, h2⟩
      simp [h1, h2] at h
    simp [this]

lemma initLoop_eq_spec (keccak : List Nat → ProofHash) :
    ∀ (addrs : List PageAddress) (s : MerkleProof),
      MerkleProof.initLoop keccak s addrs =
        some { tree := s.tree ++ (specLeafBuild keccak addrs s.page_cache s.multiproof).1
               page_cache := (specLeafBuild keccak addrs s.page_cache s.multiproof).2.1
               multiproof := (specLeafBuild keccak addrs s.page_cache s.multiproof).2.2 } := by
  intro addrs
  induction addrs with
  | nil => intro s; simp [MerkleProof.initLoop, specLeafBuild]
  | cons a rest ih =>
    intro s
    rw [MerkleProof.initLoop]
    by_cases hc : s.page_cache.has_next a
    · obtain ⟨p, hp, hpa⟩ := PageCache.has_next_true hc
      rw [if_pos hc, PageCache.get_next_of_getLast? hp]
      dsimp only
      rw [ih, specLeafBuild_cons, specLeafStep_cache keccak s.multiproof hp hpa]
      simp
    · have hc' : s.page_cache.has_next a = false := by
        simpa using hc
      by_cases hm : s.multiproof.has_next a a
      · obtain ⟨e, he, h1, h2⟩ := Multiproof.has_next_matches hm
        rw [if_neg hc, if_pos hm, Multiproof.get_next_getLast he]
        dsimp only
        rw [ih, specLeafBuild_cons, specLeafStep_of_not_cache keccak s.multiproof hc',
          specLeafStepMp_hit s.page_cache he h1 h2]
        simp
      · have hm' : s.multiproof.has_next a a = false := by
          simpa using hm
        rw [if_neg hc, if_neg hm, ih, specLeafBuild_cons,
          specLeafStep_of_not_cache keccak s.multiproof hc',
          specLeafStepMp_miss s.page_cache hm']
        simp

lemma specLeafBuild_length (keccak : List Nat → ProofHash) :
    ∀ (addrs : List PageAddress) (pc : PageCache) (mp : Multiproof),
      (specLeafBuild keccak addrs pc mp).1.length = addrs.length := by
  intro addrs
  induction addrs with
  | nil => intro pc mp; rfl
  | cons a rest ih =>
    intro pc mp
    rw [specLeafBuild_cons]
    simp [ih]

lemma specLeafStep_pc_cases (keccak : List Nat → ProofHash) (a : PageAddress)
    (pc : PageCache) (mp : Multiproof) :
    (specLeafStep keccak a pc mp).2.1.pages = pc.pages ∨
      (specLeafStep keccak a pc mp).2.1.pages = pc.pages.dropLast := by
  unfold specLeafStep specLeafStepMp
  repeat' split
  all_goals first
  | (left; rfl)
  | (right; rfl)

lemma specLeafStep_mp_cases (keccak : List Nat → ProofHash) (a : PageAddress)
    (pc : PageCache) (mp : Multiproof) :
    (specLeafStep keccak a pc mp).2.2.hashes = mp.hashes ∨
      (specLeafStep keccak a pc mp).2.2.hashes = mp.hashes.dropLast := by
  unfold specLeafStep specLeafStepMp
  repeat' split
  all_goals first
  | (left; rfl)
  | (right; rfl)

lemma specLeafBuild_pc_take (keccak : List Nat → ProofHash) :
    ∀ (addrs : List PageAddress) (pc : PageCache) (mp : Multiproof),
      ∃ n, (specLeafBuild keccak addrs pc mp).2.1.pages = pc.pages.take n := by
  intro addrs
  induction addrs with
  | nil => intro pc mp; exact ⟨pc.pages.length, (List.take_length pc.pages).symm⟩
  | cons a rest ih =>
    intro pc mp
    rw [specLeafBuild_cons]
    obtain ⟨n, hn⟩ := ih (specLeafStep keccak a pc mp).2.1 (specLeafStep keccak a pc mp).2.2
    rcases specLeafStep_pc_cases keccak a pc mp with h | h
    · exact ⟨n, by rw [hn, h]⟩
    · refine ⟨Nat.min n (pc.pages.length - 1), ?_⟩
      rw [hn, h, List.dropLast_eq_take, List.take_take]

lemma specLeafBuild_mp_take (keccak : List Nat → ProofHash) :
    ∀ (addrs : List PageAddress) (pc : PageCache) (mp : Multiproof),
      ∃ n, (specLeafBuild keccak addrs pc mp).2.2.hashes = mp.hashes.take n := by
  intro addrs
  induction addrs with
  | nil => intro pc mp; exact ⟨mp.hashes.length, (List.take_length mp.hashes).symm⟩
  | cons a rest ih =>
    intro pc mp
    rw [specLeafBuild_cons]
    obtain ⟨n, hn⟩ := ih (specLeafStep keccak a pc mp).2.1 (specLeafStep keccak a pc mp).2.2
    rcases specLeafStep_mp_cases keccak a pc mp with h | h
    · exact ⟨n, by rw [hn, h]⟩
    · refine ⟨Nat.min n (mp.hashes.length - 1), ?_⟩
      rw [hn, h, List.dropLast_eq_take, List.take_take]

lemma specLeafStep_slot_none (keccak : List Nat → ProofHash) {a : PageAddress}
    {pc : PageCache} {mp : Multiproof}
    (hpc : ∀ p ∈ pc.pages, p.address ≠ a)
    (hmp : ∀ e ∈ mp.hashes, ¬(e.address_low = a ∧ e.address_high = a)) :
    (specLeafStep keccak a pc mp).1 = none := by
  have hc : pc.has_next a = false := by
    unfold PageCache.has_next
    cases hp : pc.pages.getLast? with
    | none => rfl
    | some p => simpa using hpc p (mem_of_getLast? hp)
  rw [specLeafStep_of_not_cache keccak mp hc]
  have hm : mp.has_next a a = false := by
    unfold Multiproof.has_next
    cases he : mp.hashes.getLast? with
    | none => rfl
    | some e =>
      have := hmp e (mem_of_getLast? he)
      rcases eq_or_ne e.address_low a with h1 | h1
      · rcases eq_or_ne e.address_high a with h2 | h2
        · exact absurd ⟨h1, h2⟩ this
        · simp [h2]
      · simp [h1]
  rw [specLeafStepMp_miss pc hm]

lemma specLeafBuild_get_none (keccak : List Nat → ProofHash) :
    ∀ (addrs : List PageAddress) (pc : PageCache) (mp : Multiproof) (j : Nat) (a : PageAddress),
      addrs.get? j = some a →
      (∀ p ∈ pc.pages, p.address ≠ a) →
      (∀ e ∈ mp.hashes, ¬(e.address_low = a ∧ e.address_high = a)) →
      (specLeafBuild keccak addrs pc mp).1.get? j = some none := by
  intro addrs
  induction addrs with
  | nil => intro pc mp j a h; simp [List.get?] at h
  | cons a0 rest ih =>
    intro pc mp j a hj hpc hmp
    rw [specLeafBuild_cons]
    cases j with
    | zero =>
      have ha : a0 = a := by simpa using hj
      subst ha
      rw [List.get?]
      rw [specLeafStep_slot_none keccak hpc hmp]
    | succ j =>
      have hj' : rest.get? j = some a := by simpa using hj
      rw [List.get?]
      apply ih _ _ j a hj'
      · intro p hp
        apply hpc
        rcases specLeafStep_pc_cases keccak a0 pc mp with h | h
        · rw [h] at hp; exact hp
        · rw [h] at hp; exact dropLast_mem hp
      · intro e he
        apply hmp
        rcases specLeafStep_mp_cases keccak a0 pc mp with h | h
        · rw [h] at he; exact he
        · rw [h] at he; exact dropLast_mem he

/-! ## Full-cover leaf builds: cache and multiproof are interchangeable -/

lemma specLeafBuild_cache_cover (keccak : List Nat → ProofHash) :
    ∀ (addrs : List PageAddress) (rs : List Page),
      rs.map (fun p => p.address) = addrs →
      specLeafBuild keccak addrs ⟨rs.reverse⟩ ⟨[]⟩ =
        (rs.map (fun p => some (Page.hash keccak p)), ⟨[]⟩, ⟨[]⟩) := by
  intro addrs
  induction addrs with
  | nil =>
    intro rs h
    have : rs = [] := List.map_eq_nil_iff.mp h
    subst this
    rfl
  | cons a rest ih =>
    intro rs h
    cases rs with
    | nil => simp at h
    | cons p rs2 =>
      rw [List.map_cons] at h
      obtain ⟨hpa, hrest⟩ := List.cons.inj h
      have hlast : (PageCache.mk (p :: rs2).reverse).pages.getLast? = some p := by
        simp [List.reverse_cons, List.getLast?_concat]
      rw [specLeafBuild_cons, specLeafStep_cache keccak _ hlast hpa]
      have hdrop : (p :: rs2).reverse.dropLast = rs2.reverse := by
        simp [List.reverse_cons, List.dropLast_concat]
      rw [List.map_cons]
      simp only [hdrop]
      rw [ih rs2 hrest]

lemma specLeafBuild_mp_cover (keccak : List Nat → ProofHash) :
    ∀ (addrs : List PageAddress) (rs : List Page),
      rs.map (fun p => p.address) = addrs →
      specLeafBuild keccak addrs ⟨[]⟩
          ⟨(rs.map (fun p => ⟨p.address, p.address, Page.hash keccak p⟩)).reverse⟩ =
        (rs.map (fun p => some (Page.hash keccak p)), ⟨[]⟩, ⟨[]⟩) := by
  intro addrs
  induction addrs with
  | nil =>
    intro rs h
    have : rs = [] := List.map_eq_nil_iff.mp h
    subst this
    rfl
  | cons a rest ih =>
    intro rs h
    cases rs with
    | nil => simp at h
    | cons p rs2 =>
      rw [List.map_cons] at h
      obtain ⟨hpa, hrest⟩ := List.cons.inj h
      have hcache : (PageCache.mk []).has_next a = false := rfl
      have hlast :
          (Multiproof.mk ((p :: rs2).map
              (fun q => (⟨q.address, q.address, Page.hash keccak q⟩ : MultiproofEntry))).reverse).hashes.getLast?
            = some ⟨p.address, p.address, Page.hash keccak p⟩ := by
        simp [List.map_cons, List.reverse_cons, List.getLast?_concat]
      rw [specLeafBuild_cons, specLeafStep_of_not_cache keccak _ hcache,
        specLeafStepMp_hit _ hlast hpa hpa]
      have hdrop :
          ((⟨p.address, p.address, Page.hash keccak p⟩ : MultiproofEntry) ::
              rs2.map (fun q => (⟨q.address, q.address, Page.hash keccak q⟩ : MultiproofEntry))).reverse.dropLast
            = (rs2.map (fun q => (⟨q.address, q.address, Page.hash keccak q⟩ : MultiproofEntry))).reverse := by
        simp [List.reverse_cons, List.dropLast_concat]
      rw [List.map_cons]
      simp only [hdrop]
      rw [ih rs2 hrest]
      simp

/-! ## Reduction step: facts about the in-place pairwise loop -/

lemma bubbleLoop_length (keccak : List Nat → ProofHash) (es : Nat) :
    ∀ (steps w : Nat) (tree : List (Option ProofHash)) (mp : Multiproof)
      (tree' : List (Option ProofHash)) (mp' : Multiproof),
      MerkleProof.bubbleLoop keccak es w steps tree mp = some (tree', mp') →
      tree'.length = tree.length := by
  intro steps
  induction steps with
  | zero =>
    intro w tree mp tree' mp' h
    rw [MerkleProof.bubbleLoop] at h
    cases h
    rfl
  | succ steps ih =>
    intro w tree mp tree' mp' h
    rw [MerkleProof.bubbleLoop] at h
    cases h2w : tree.get? (2 * w) with
    | none => rw [h2w] at h; cases h
    | some left =>
      cases h2w1 : tree.get? (2 * w + 1) with
      | none => rw [h2w, h2w1] at h; cases h
      | some right =>
        rw [h2w, h2w1] at h
        dsimp only at h
        cases left with
        | some lh =>
          cases right with
          | some rh =>
            have := ih _ _ _ _ _ h
            rwa [List.length_set] at this
          | none =>
            dsimp only at h
            split at h
            · cases hg : mp.get_next with
              | none => rw [hg] at h; cases h
              | some pair =>
                rw [hg] at h
                have := ih _ _ _ _ _ h
                rwa [List.length_set] at this
            · have := ih _ _ _ _ _ h
              rwa [List.length_set] at this
        | none =>
          dsimp only at h
          split at h
          · cases hg : mp.get_next with
            | none => rw [hg] at h; cases h
            | some pair =>
              rw [hg] at h
              have := ih _ _ _ _ _ h
              rwa [List.length_set] at this
          · have := ih _ _ _ _ _ h
            rwa [List.length_set] at this

lemma get?_set_self {α : Type _} {l : List α} {n : Nat} (a : α) (h : n < l.length) :
    (l.set n a).get? n = some a := by
  rw [List.get?_set_eq, List.get?_eq_get h]
  rfl

lemma Multiproof.get_next_snd {m : Multiproof} {e : MultiproofEntry} {m' : Multiproof}
    (h : m.get_next = some (e, m')) : m'.hashes = m.hashes.dropLast := by
  rw [Multiproof.get_next_some h, List.dropLast_concat]

lemma bubbleLoop_succ_merge (keccak : List Nat → ProofHash) (es w steps : Nat)
    {tree : List (Option ProofHash)} (mp : Multiproof) {lh rh : ProofHash}
    (h2w : tree.get? (2 * w) = some (some lh))
    (h2w1 : tree.get? (2 * w + 1) = some (some rh)) :
    MerkleProof.bubbleLoop keccak es w (steps + 1) tree mp =
      MerkleProof.bubbleLoop keccak es (w + 1) steps
        (tree.set w (some (MerkleProof.merge_hashes keccak lh rh))) mp := by
  rw [MerkleProof.bubbleLoop, h2w, h2w1]

lemma bubbleLoop_succ_mp (keccak : List Nat → ProofHash) (es w steps : Nat)
    {tree : List (Option ProofHash)} (mp : Multiproof) {lc rc : Option ProofHash}
    (h2w : tree.get? (2 * w) = some lc)
    (h2w1 : tree.get? (2 * w + 1) = some rc)
    (hnone : lc = none ∨ rc = none) :
    MerkleProof.bubbleLoop keccak es w (steps + 1) tree mp =
      (if mp.has_next (w * es) (w * es + es - 1) then
         match mp.get_next with
         | some (entry, mp2) =>
             MerkleProof.bubbleLoop keccak es (w + 1) steps (tree.set w (some entry.hash)) mp2
         | none => none
       else MerkleProof.bubbleLoop keccak es (w + 1) steps (tree.set w none) mp) := by
  rw [MerkleProof.bubbleLoop, h2w, h2w1]
  rcases hnone with rfl | rfl
  · cases rc <;> rfl
  · cases lc <;> rfl

lemma bubbleLoop_invariants (keccak : List Nat → ProofHash) (es : Nat) :
    ∀ (steps w : Nat) (tree : List (Option ProofHash)) (mp : Multiproof)
      (tree' : List (Option ProofHash)) (mp' : Multiproof),
      MerkleProof.bubbleLoop keccak es w steps tree mp = some (tree', mp') →
      (∀ j, j < w → tree'.get? j = tree.get? j) ∧
        ∃ n, mp'.hashes = mp.hashes.take n := by
  intro steps
  induction steps with
  | zero =>
    intro w tree mp tree' mp' h
    rw [MerkleProof.bubbleLoop] at h
    cases h
    exact ⟨fun j _ => rfl, mp.hashes.length, (List.take_length mp.hashes).symm⟩
  | succ steps ih =>
    intro w tree mp tree' mp' h
    cases h2w : tree.get? (2 * w) with
    | none => rw [MerkleProof.bubbleLoop, h2w] at h; cases h
    | some lc =>
      cases h2w1 : tree.get? (2 * w + 1) with
      | none => rw [MerkleProof.bubbleLoop, h2w, h2w1] at h; cases h
      | some rc =>
        have hset : ∀ (v : Option ProofHash) (j : Nat), j < w →
            (tree.set w v).get? j = tree.get? j := by
          intro v j hj
          exact List.get?_set_ne _ _ (by omega)
        cases lc with
        | some lh =>
          cases rc with
          | some rh =>
            rw [bubbleLoop_succ_merge keccak es w steps mp h2w h2w1] at h
            obtain ⟨hframe, n, hn⟩ := ih _ _ _ _ _ h
            refine ⟨fun j hj => by rw [hframe j (by omega), hset _ j hj], n, hn⟩
          | none =>
            rw [bubbleLoop_succ_mp keccak es w steps mp h2w h2w1 (Or.inr rfl)] at h
            split at h
            · cases hg : mp.get_next with
              | none => rw [hg] at h; cases h
              | some pair =>
                obtain ⟨e, mp2⟩ := pair
                rw [hg] at h
                obtain ⟨hframe, n, hn⟩ := ih _ _ _ _ _ h
                refine ⟨fun j hj => by rw [hframe j (by omega), hset _ j hj], ?_⟩
                refine ⟨Nat.min n (mp.hashes.length - 1), ?_⟩
                rw [hn, Multiproof.get_next_snd hg, List.dropLast_eq_take, List.take_take]
            · obtain ⟨hframe, n, hn⟩ := ih _ _ _ _ _ h
              exact ⟨fun j hj => by rw [hframe j (by omega), hset _ j hj], n, hn⟩
        | none =>
          rw [bubbleLoop_succ_mp keccak es w steps mp h2w h2w1 (Or.inl rfl)] at h
          split at h
          · cases hg : mp.get_next with
            | none => rw [hg] at h; cases h
            | some pair =>
              obtain ⟨e, mp2⟩ := pair
              rw [hg] at h
              obtain ⟨hframe, n, hn⟩ := ih _ _ _ _ _ h
              refine ⟨fun j hj => by rw [hframe j (by omega), hset _ j hj], ?_⟩
              refine ⟨Nat.min n (mp.hashes.length - 1), ?_⟩
              rw [hn, Multiproof.get_next_snd hg, List.dropLast_eq_take, List.take_take]
          · obtain ⟨hframe, n, hn⟩ := ih _ _ _ _ _ h
            exact ⟨fun j hj => by rw [hframe j (by omega), hset _ j hj], n, hn⟩

lemma bubbleLoop_merge_out (keccak : List Nat → ProofHash) (es : Nat) :
    ∀ (steps w : Nat) (tree : List (Option ProofHash)) (mp : Multiproof)
      (tree' : List (Option ProofHash)) (mp' : Multiproof) (p : Nat) (lh rh : ProofHash),
      MerkleProof.bubbleLoop keccak es w steps tree mp = some (tree', mp') →
      w ≤ p → p < w + steps →
      tree.get? (2 * p) = some (some lh) →
      tree.get? (2 * p + 1) = some (some rh) →
      tree'.get? p = some (some (MerkleProof.merge_hashes keccak lh rh)) := by
  intro steps
  induction steps with
  | zero => intro w tree mp tree' mp' p lh rh _ hwp hps _ _; omega
  | succ steps ih =>
    intro w tree mp tree' mp' p lh rh h hwp hps h2p h2p1
    rcases Nat.lt_or_ge w p with hlt | hge
    · cases h2w : tree.get? (2 * w) with
      | none => rw [MerkleProof.bubbleLoop, h2w] at h; cases h
      | some lc =>
        cases h2w1 : tree.get? (2 * w + 1) with
        | none => rw [MerkleProof.bubbleLoop, h2w, h2w1] at h; cases h
        | some rc =>
          have hpres : ∀ (v : Option ProofHash),
              (tree.set w v).get? (2 * p) = some (some lh) ∧
                (tree.set w v).get? (2 * p + 1) = some (some rh) := by
            intro v
            constructor
            · rw [List.get?_set_ne _ _ (by omega)]; exact h2p
            · rw [List.get?_set_ne _ _ (by omega)]; exact h2p1
          cases lc with
          | some lh0 =>
            cases rc with
            | some rh0 =>
              rw [bubbleLoop_succ_merge keccak es w steps mp h2w h2w1] at h
              exact ih _ _ _ _ _ p lh rh h (by omega) (by omega) (hpres _).1 (hpres _).2
            | none =>
              rw [bubbleLoop_succ_mp keccak es w steps mp h2w h2w1 (Or.inr rfl)] at h
              split at h
              · cases hg : mp.get_next with
                | none => rw [hg] at h; cases h
                | some pair =>
                  obtain ⟨e, mp2⟩ := pair
                  rw [hg] at h
                  exact ih _ _ _ _ _ p lh rh h (by omega) (by omega) (hpres _).1 (hpres _).2
              · exact ih _ _ _ _ _ p lh rh h (by omega) (by omega) (hpres _).1 (hpres _).2
          | none =>
            rw [bubbleLoop_succ_mp keccak es w steps mp h2w h2w1 (Or.inl rfl)] at h
            split at h
            · cases hg : mp.get_next with
              | none => rw [hg] at h; cases h
              | some pair =>
                obtain ⟨e, mp2⟩ := pair
                rw [hg] at h
                exact ih _ _ _ _ _ p lh rh h (by omega) (by omega) (hpres _).1 (hpres _).2
            · exact ih _ _ _ _ _ p lh rh h (by omega) (by omega) (hpres _).1 (hpres _).2
    · have hwp' : w = p := by omega
      subst hwp'
      rw [bubbleLoop_succ_merge keccak es w steps mp h2p h2p1] at h
      obtain ⟨hframe, -⟩ := bubbleLoop_invariants keccak es _ _ _ _ _ _ h
      rw [hframe w (by omega)]
      have hwlen : w < tree.length := by
        rcases Nat.lt_or_ge (2 * w) tree.length with hlt | hge
        · omega
        · rw [List.get?_eq_none.mpr hge] at h2p
          simp at h2p
      exact get?_set_self _ hwlen

lemma bubbleLoop_none_out (keccak : List Nat → ProofHash) (es : Nat) :
    ∀ (steps w : Nat) (tree : List (Option ProofHash)) (mp : Multiproof)
      (tree' : List (Option ProofHash)) (mp' : Multiproof) (p : Nat) (lc rc : Option ProofHash),
      MerkleProof.bubbleLoop keccak es w steps tree mp = some (tree', mp') →
      w ≤ p → p < w + steps →
      tree.get? (2 * p) = some lc →
      tree.get? (2 * p + 1) = some rc →
      (lc = none ∨ rc = none) →
      (∀ e ∈ mp.hashes, ¬(e.address_low = p * es ∧ e.address_high = p * es + es - 1)) →
      tree'.get? p = some none := by
  intro steps
  induction steps with
  | zero => intro w tree mp tree' mp' p lc rc _ hwp hps _ _ _ _; omega
  | succ steps ih =>
    intro w tree mp tree' mp' p lc rc h hwp hps h2p h2p1 hnone hmpx
    rcases Nat.lt_or_ge w p with hlt | hge
    · cases h2w : tree.get? (2 * w) with
      | none => rw [MerkleProof.bubbleLoop, h2w] at h; cases h
      | some lc0 =>
        cases h2w1 : tree.get? (2 * w + 1) with
        | none => rw [MerkleProof.bubbleLoop, h2w, h2w1] at h; cases h
        | some rc0 =>
          have hpresl : ∀ (v : Option ProofHash), (tree.set w v).get? (2 * p) = some lc := by
            intro v; rw [List.get?_set_ne _ _ (by omega)]; exact h2p
          have hpresr : ∀ (v : Option ProofHash), (tree.set w v).get? (2 * p + 1) = some rc := by
            intro v; rw [List.get?_set_ne _ _ (by omega)]; exact h2p1
          cases lc0 with
          | some lh0 =>
            cases rc0 with
            | some rh0 =>
              rw [bubbleLoop_succ_merge keccak es w steps mp h2w h2w1] at h
              exact ih _ _ _ _ _ p lc rc h (by omega) (by omega) (hpresl _) (hpresr _) hnone hmpx
            | none =>
              rw [bubbleLoop_succ_mp keccak es w steps mp h2w h2w1 (Or.inr rfl)] at h
              split at h
              · cases hg : mp.get_next with
                | none => rw [hg] at h; cases h
                | some pair =>
                  obtain ⟨e, mp2⟩ := pair
                  rw [hg] at h
                  refine ih _ _ _ _ _ p lc rc h (by omega) (by omega) (hpresl _) (hpresr _) hnone ?_
                  intro e' he'
                  exact hmpx e' (by
                    rw [Multiproof.get_next_snd hg] at he'
                    exact dropLast_mem he')
              · exact ih _ _ _ _ _ p lc rc h (by omega) (by omega) (hpresl _) (hpresr _) hnone hmpx
          | none =>
            rw [bubbleLoop_succ_mp keccak es w steps mp h2w h2w1 (Or.inl rfl)] at h
            split at h
            · cases hg : mp.get_next with
              | none => rw [hg] at h; cases h
              | some pair =>
                obtain ⟨e, mp2⟩ := pair
                rw [hg] at h
                refine ih _ _ _ _ _ p lc rc h (by omega) (by omega) (hpresl _) (hpresr _) hnone ?_
                intro e' he'
                exact hmpx e' (by
                  rw [Multiproof.get_next_snd hg] at he'
                  exact dropLast_mem he')
            · exact ih _ _ _ _ _ p lc rc h (by omega) (by omega) (hpresl _) (hpresr _) hnone hmpx
    · have hwp' : w = p := by omega
      subst hwp'
      rw [bubbleLoop_succ_mp keccak es w steps mp h2p h2p1 hnone] at h
      have hn : mp.has_next (w * es) (w * es + es - 1) = false := by
        cases hn : mp.has_next (w * es) (w * es + es - 1) with
        | false => rfl
        | true =>
          obtain ⟨e, he, h1, h2⟩ := Multiproof.has_next_matches hn
          exact absurd ⟨h1, h2⟩ (hmpx e (mem_of_getLast? he))
      rw [hn] at h
      simp only [Bool.false_eq_true, if_false] at h
      obtain ⟨hframe, -⟩ := bubbleLoop_invariants keccak es _ _ _ _ _ _ h
      rw [hframe w (by omega)]
      have hwlen : w < tree.length := by
        rcases Nat.lt_or_ge (2 * w) tree.length with hlt | hge
        · omega
        · rw [List.get?_eq_none.mpr hge] at h2p
          simp at h2p
      exact get?_set_self _ hwlen

lemma bubbleLoop_total (keccak : List Nat → ProofHash) (es : Nat) :
    ∀ (steps w : Nat) (tree : List (Option ProofHash)) (mp : Multiproof),
      2 * (w + steps) ≤ tree.length →
      ∃ out, MerkleProof.bubbleLoop keccak es w steps tree mp = some out := by
  intro steps
  induction steps with
  | zero => intro w tree mp _; exact ⟨(tree, mp), rfl⟩
  | succ steps ih =>
    intro w tree mp hlen
    have hl : 2 * w < tree.length := by omega
    have hr : 2 * w + 1 < tree.length := by omega
    cases hlc : tree.get ⟨2 * w, hl⟩ with
    | some lh =>
      cases hrc : tree.get ⟨2 * w + 1, hr⟩ with
      | some rh =>
        rw [bubbleLoop_succ_merge keccak es w steps mp
          (by rw [List.get?_eq_get hl, hlc]) (by rw [List.get?_eq_get hr, hrc])]
        exact ih (w + 1) _ mp (by rw [List.length_set]; omega)
      | none =>
        rw [bubbleLoop_succ_mp keccak es w steps mp
          (by rw [List.get?_eq_get hl, hlc]) (by rw [List.get?_eq_get hr, hrc]) (Or.inr rfl)]
        split
        next hn =>
          obtain ⟨e, he, -, -⟩ := Multiproof.has_next_matches hn
          rw [Multiproof.get_next_getLast he]
          exact ih (w + 1) _ _ (by rw [List.length_set]; omega)
        next =>
          exact ih (w + 1) _ mp (by rw [List.length_set]; omega)
    | none =>
      cases hrc : tree.get ⟨2 * w + 1, hr⟩ with
      | some rh =>
        rw [bubbleLoop_succ_mp keccak es w steps mp
          (by rw [List.get?_eq_get hl, hlc]) (by rw [List.get?_eq_get hr, hrc]) (Or.inl rfl)]
        split
        next hn =>
          obtain ⟨e, he, -, -⟩ := Multiproof.has_next_matches hn
          rw [Multiproof.get_next_getLast he]
          exact ih (w + 1) _ _ (by rw [List.length_set]; omega)
        next =>
          exact ih (w + 1) _ mp (by rw [List.length_set]; omega)
      | none =>
        rw [bubbleLoop_succ_mp keccak es w steps mp
          (by rw [List.get?_eq_get hl, hlc]) (by rw [List.get?_eq_get hr, hrc]) (Or.inl rfl)]
        split
        next hn =>
          obtain ⟨e, he, -, -⟩ := Multiproof.has_next_matches hn
          rw [Multiproof.get_next_getLast he]
          exact ih (w + 1) _ _ (by rw [List.length_set]; omega)
        next =>
          exact ih (w + 1) _ mp (by rw [List.length_set]; omega)

lemma bubbleLoop_odd_none (keccak : List Nat → ProofHash) (es : Nat) :
    ∀ (steps w : Nat) (tree : List (Option ProofHash)) (mp : Multiproof),
      tree.length + 1 = 2 * w + 2 * steps → 1 ≤ steps →
      MerkleProof.bubbleLoop keccak es w steps tree mp = none := by
  intro steps
  induction steps with
  | zero => intro w tree mp _ h1; omega
  | succ steps ih =>
    intro w tree mp hlen _
    cases steps with
    | zero =>
      have hl : 2 * w < tree.length := by omega
      have hr : tree.get? (2 * w + 1) = none := List.get?_eq_none.mpr (by omega)
      rw [MerkleProof.bubbleLoop, List.get?_eq_get hl, hr]
    | succ steps' =>
      have hl : 2 * w < tree.length := by omega
      have hr : 2 * w + 1 < tree.length := by omega
      cases hlc : tree.get ⟨2 * w, hl⟩ with
      | some lh =>
        cases hrc : tree.get ⟨2 * w + 1, hr⟩ with
        | some rh =>
          rw [bubbleLoop_succ_merge keccak es w (steps' + 1) mp
            (by rw [List.get?_eq_get hl, hlc]) (by rw [List.get?_eq_get hr, hrc])]
          exact ih (w + 1) _ mp (by rw [List.length_set]; omega) (by omega)
        | none =>
          rw [bubbleLoop_succ_mp keccak es w (steps' + 1) mp
            (by rw [List.get?_eq_get hl, hlc]) (by rw [List.get?_eq_get hr, hrc]) (Or.inr rfl)]
          split
          next hn =>
            obtain ⟨e, he, -, -⟩ := Multiproof.has_next_matches hn
            rw [Multiproof.get_next_getLast he]
            exact ih (w + 1) _ _ (by rw [List.length_set]; omega) (by omega)
          next =>
            exact ih (w + 1) _ mp (by rw [List.length_set]; omega) (by omega)
      | none =>
        cases hrc : tree.get ⟨2 * w + 1, hr⟩ with
        | some rh =>
          rw [bubbleLoop_succ_mp keccak es w (steps' + 1) mp
            (by rw [List.get?_eq_get hl, hlc]) (by rw [List.get?_eq_get hr, hrc]) (Or.inl rfl)]
          split
          next hn =>
            obtain ⟨e, he, -, -⟩ := Multiproof.has_next_matches hn
            rw [Multiproof.get_next_getLast he]
            exact ih (w + 1) _ _ (by rw [List.length_set]; omega) (by omega)
          next =>
            exact ih (w + 1) _ mp (by rw [List.length_set]; omega) (by omega)
        | none =>
          rw [bubbleLoop_succ_mp keccak es w (steps' + 1) mp
            (by rw [List.get?_eq_get hl, hlc]) (by rw [List.get?_eq_get hr, hrc]) (Or.inl rfl)]
          split
          next hn =>
            obtain ⟨e, he, -, -⟩ := Multiproof.has_next_matches hn
            rw [Multiproof.get_next_getLast he]
            exact ih (w + 1) _ _ (by rw [List.length_set]; omega) (by omega)
          next =>
            exact ih (w + 1) _ mp (by rw [List.length_set]; omega) (by omega)

/-! ## Facts about one whole bubble_up call -/

lemma bubble_up_total (keccak : List Nat → ProofHash) {s : MerkleProof} {m : Nat}
    (hlen : s.tree.length = 2 * m) (hm : 1 ≤ m) :
    ∃ s', MerkleProof.bubble_up keccak s = some s' ∧ s'.tree.length = m ∧
      s'.page_cache = s.page_cache ∧
      ∃ q, s'.multiproof.hashes = s.multiproof.hashes.take q := by
  unfold MerkleProof.bubble_up
  rw [hlen]
  have hs : (2 * m) >>> 1 = m := by rw [Nat.shiftRight_one]; omega
  rw [hs, if_neg (by omega)]
  have hcount : Nat.min ((2 * m + 1) / 2) (2 * m) = m := by
    unfold Nat.min
    omega
  rw [hcount]
  obtain ⟨⟨tree', mp'⟩, hb⟩ :=
    bubbleLoop_total keccak ((1 <<< MEMORY_LOG2_SIZE) / m) m 0 s.tree s.multiproof
      (by omega)
  rw [hb]
  have hlen' : tree'.length = 2 * m := by
    rw [bubbleLoop_length keccak _ _ _ _ _ _ _ hb, hlen]
  obtain ⟨-, q, hq⟩ := bubbleLoop_invariants keccak _ _ _ _ _ _ _ hb
  refine ⟨_, rfl, ?_, rfl, q, hq⟩
  rw [List.length_take, hlen']
  rw [Nat.shiftRight_one]
  omega

lemma bubble_up_propagate_none (keccak : List Nat → ProofHash) {s s' : MerkleProof}
    {m c : Nat} (hlen : s.tree.length = 2 * m) (hm : 1 ≤ m) (hc : c < 2 * m)
    (hslot : s.tree.get? c = some none)
    (hmpx : ∀ e ∈ s.multiproof.hashes,
      ¬(e.address_low = (c / 2) * ((1 <<< MEMORY_LOG2_SIZE) / m) ∧
        e.address_high = (c / 2) * ((1 <<< MEMORY_LOG2_SIZE) / m) +
          (1 <<< MEMORY_LOG2_SIZE) / m - 1))
    (hb : MerkleProof.bubble_up keccak s = some s') :
    s'.tree.get? (c / 2) = some none := by
  unfold MerkleProof.bubble_up at hb
  rw [hlen] at hb
  have hs : (2 * m) >>> 1 = m := by rw [Nat.shiftRight_one]; omega
  rw [hs, if_neg (by omega)] at hb
  have hcount : Nat.min ((2 * m + 1) / 2) (2 * m) = m := by
    unfold Nat.min
    omega
  rw [hcount] at hb
  cases hbl : MerkleProof.bubbleLoop keccak ((1 <<< MEMORY_LOG2_SIZE) / m) 0 m s.tree
      s.multiproof with
  | none => rw [hbl] at hb; cases hb
  | some out =>
    obtain ⟨tree', mp'⟩ := out
    rw [hbl] at hb
    cases hb
    have hlen' : tree'.length = 2 * m := by
      rw [bubbleLoop_length keccak _ _ _ _ _ _ _ hbl, hlen]
    have hout : tree'.get? (c / 2) = some none := by
      have hcases : 2 * (c / 2) = c ∨ 2 * (c / 2) + 1 = c := by omega
      rcases hcases with hc2 | hc2
      · have hidx : 2 * (c / 2) + 1 < s.tree.length := by omega
        refine bubbleLoop_none_out keccak _ m 0 s.tree s.multiproof tree' mp' (c / 2)
          none (s.tree.get ⟨2 * (c / 2) + 1, hidx⟩) hbl (by omega) (by omega) ?_ ?_
          (Or.inl rfl) hmpx
        · rw [hc2]; exact hslot
        · exact List.get?_eq_get hidx
      · have hidx : 2 * (c / 2) < s.tree.length := by omega
        refine bubbleLoop_none_out keccak _ m 0 s.tree s.multiproof tree' mp' (c / 2)
          (s.tree.get ⟨2 * (c / 2), hidx⟩) none hbl (by omega) (by omega) ?_ ?_
          (Or.inr rfl) hmpx
        · exact List.get?_eq_get hidx
        · rw [hc2]; exact hslot
    have htake : tree'.length >>> 1 = m := by rw [hlen', Nat.shiftRight_one]; omega
    show (tree'.take (tree'.length >>> 1)).get? (c / 2) = some none
    rw [htake, List.get?_take (by omega : c / 2 < m), hout]

lemma bubble_up_nine_none (keccak : List Nat → ProofHash) {s : MerkleProof}
    (hlen : s.tree.length = 9) : MerkleProof.bubble_up keccak s = none := by
  unfold MerkleProof.bubble_up
  rw [hlen]
  have h1 : (9 : Nat) >>> 1 = 4 := rfl
  rw [h1, if_neg (by omega)]
  have hcount : Nat.min ((9 + 1) / 2) 9 = 5 := rfl
  rw [hcount,
    bubbleLoop_odd_none keccak ((1 <<< MEMORY_LOG2_SIZE) / 4) 5 0 s.tree s.multiproof
      (by omega) (by omega)]

/-! ## The while loop of calculate_root -/

lemma reduceLoop_succ (keccak : List Nat → ProofHash) (fuel : Nat) (s : MerkleProof) :
    MerkleProof.reduceLoop keccak (fuel + 1) s =
      if 1 < s.tree.length then
        match MerkleProof.bubble_up keccak s with
        | some s' => MerkleProof.reduceLoop keccak fuel s'
        | none => none
      else some s := rfl

lemma reduceLoop_pow2 (keccak : List Nat → ProofHash) :
    ∀ (k fuel : Nat) (s : MerkleProof), s.tree.length = 2 ^ k → k < fuel →
      ∃ s', MerkleProof.reduceLoop keccak fuel s = some s' ∧ s'.tree.length = 1 ∧
        s'.page_cache = s.page_cache ∧
        ∃ q, s'.multiproof.hashes = s.multiproof.hashes.take q := by
  intro k
  induction k with
  | zero =>
    intro fuel s hlen hf
    obtain ⟨f, rfl⟩ : ∃ f, fuel = f + 1 := ⟨fuel - 1, by omega⟩
    rw [reduceLoop_succ, if_neg (by rw [hlen]; decide)]
    exact ⟨s, rfl, by rw [hlen]; rfl, rfl, s.multiproof.hashes.length,
      (List.take_length s.multiproof.hashes).symm⟩
  | succ k ih =>
    intro fuel s hlen hf
    obtain ⟨f, rfl⟩ : ∃ f, fuel = f + 1 := ⟨fuel - 1, by omega⟩
    have hlen' : s.tree.length = 2 * 2 ^ k := by rw [hlen]; ring
    obtain ⟨s1, hb, hlen1, hpc1, q1, hq1⟩ :=
      bubble_up_total keccak hlen' (Nat.one_le_two_pow)
    rw [reduceLoop_succ, if_pos (by rw [hlen']; have := Nat.one_le_two_pow (n := k); omega), hb]
    obtain ⟨s', hr, hlen2, hpc2, q2, hq2⟩ := ih f s1 hlen1 (by omega)
    refine ⟨s', hr, hlen2, by rw [hpc2, hpc1], ?_⟩
    refine ⟨Nat.min q2 q1, ?_⟩
    rw [hq2, hq1, List.take_take]

lemma reduceLoop_c6_chain (keccak : List Nat → ProofHash) {i : Nat} (hi : i < 8) :
    ∀ (s : MerkleProof) (fuel : Nat), 4 ≤ fuel → s.tree.length = 8 →
      s.tree.get? i = some none →
      (∀ e ∈ s.multiproof.hashes, ¬(e.address_low ≤ 4 * i ∧ 4 * i ≤ e.address_high)) →
      ∃ s', MerkleProof.reduceLoop keccak fuel s = some s' ∧
        s'.tree.get? 0 = some none ∧ s'.tree.length = 1 := by
  intro s fuel hfuel hlen hslot hmp
  obtain ⟨f, rfl⟩ : ∃ f, fuel = f + 4 := ⟨fuel - 4, by omega⟩
  -- level 8 -> 4, parent span 8 bytes
  obtain ⟨s1, hb1, hlen1, hpc1, q1, hq1⟩ :=
    bubble_up_total keccak (show s.tree.length = 2 * 4 by omega) (by omega)
  have hmpx1 : ∀ e ∈ s.multiproof.hashes,
      ¬(e.address_low = (i / 2) * ((1 <<< MEMORY_LOG2_SIZE) / 4) ∧
        e.address_high = (i / 2) * ((1 <<< MEMORY_LOG2_SIZE) / 4) +
          (1 <<< MEMORY_LOG2_SIZE) / 4 - 1) := by
    intro e he hand
    obtain ⟨h1, h2⟩ := hand
    have h32 : (1 <<< MEMORY_LOG2_SIZE) / 4 = 8 := rfl
    rw [h32] at h1 h2
    exact hmp e he ⟨by omega, by omega⟩
  have hslot1 : s1.tree.get? (i / 2) = some none :=
    bubble_up_propagate_none keccak (show s.tree.length = 2 * 4 by omega) (by omega)
      (by omega) hslot hmpx1 hb1
  have hmp1 : ∀ e ∈ s1.multiproof.hashes, ¬(e.address_low ≤ 4 * i ∧ 4 * i ≤ e.address_high) := by
    intro e he
    rw [hq1] at he
    exact hmp e (List.take_subset _ _ he)
  -- level 4 -> 2, parent span 16 bytes
  obtain ⟨s2, hb2, hlen2, hpc2, q2, hq2⟩ :=
    bubble_up_total keccak (show s1.tree.length = 2 * 2 by omega) (by omega)
  have hmpx2 : ∀ e ∈ s1.multiproof.hashes,
      ¬(e.address_low = (i / 2 / 2) * ((1 <<< MEMORY_LOG2_SIZE) / 2) ∧
        e.address_high = (i / 2 / 2) * ((1 <<< MEMORY_LOG2_SIZE) / 2) +
          (1 <<< MEMORY_LOG2_SIZE) / 2 - 1) := by
    intro e he hand
    obtain ⟨h1, h2⟩ := hand
    have h16 : (1 <<< MEMORY_LOG2_SIZE) / 2 = 16 := rfl
    rw [h16] at h1 h2
    exact hmp1 e he ⟨by omega, by omega⟩
  have hslot2 : s2.tree.get? (i / 2 / 2) = some none :=
    bubble_up_propagate_none keccak (show s1.tree.length = 2 * 2 by omega) (by omega)
      (by omega) hslot1 hmpx2 hb2
  have hmp2 : ∀ e ∈ s2.multiproof.hashes, ¬(e.address_low ≤ 4 * i ∧ 4 * i ≤ e.address_high) := by
    intro e he
    rw [hq2] at he
    exact hmp1 e (List.take_subset _ _ he)
  -- level 2 -> 1, parent span 32 bytes
  obtain ⟨s3, hb3, hlen3, hpc3, q3, hq3⟩ :=
    bubble_up_total keccak (show s2.tree.length = 2 * 1 by omega) (by omega)
  have hmpx3 : ∀ e ∈ s2.multiproof.hashes,
      ¬(e.address_low = (i / 2 / 2 / 2) * ((1 <<< MEMORY_LOG2_SIZE) / 1) ∧
        e.address_high = (i / 2 / 2 / 2) * ((1 <<< MEMORY_LOG2_SIZE) / 1) +
          (1 <<< MEMORY_LOG2_SIZE) / 1 - 1) := by
    intro e he hand
    obtain ⟨h1, h2⟩ := hand
    have h32 : (1 <<< MEMORY_LOG2_SIZE) / 1 = 32 := rfl
    rw [h32] at h1 h2
    exact hmp2 e he ⟨by omega, by omega⟩
  have hslot3 : s3.tree.get? (i / 2 / 2 / 2) = some none :=
    bubble_up_propagate_none keccak (show s2.tree.length = 2 * 1 by omega) (by omega)
      (by omega) hslot2 hmpx3 hb3
  have hzero : i / 2 / 2 / 2 = 0 := by omega
  rw [hzero] at hslot3
  refine ⟨s3, ?_, hslot3, hlen3⟩
  have e4 : f + 4 = (f + 3) + 1 := rfl
  have e3 : f + 3 = (f + 2) + 1 := rfl
  have e2 : f + 2 = (f + 1) + 1 := rfl
  rw [e4, reduceLoop_succ, if_pos (by omega), hb1]
  dsimp only
  rw [e3, reduceLoop_succ, if_pos (by omega), hb2]
  dsimp only
  rw [e2, reduceLoop_succ, if_pos (by omega), hb3]
  dsimp only
  rw [reduceLoop_succ, if_neg (by omega)]

/-! ## Whole-computation facts -/

lemma leafAddresses_get? {i : Nat} (hi : i < 8) :
    leafAddresses.get? i = some (i * (1 <<< PAGE_LOG2_SIZE)) := by
  unfold leafAddresses
  have h8 : (1 <<< MEMORY_LOG2_SIZE) / (1 <<< PAGE_LOG2_SIZE) = 8 := rfl
  rw [h8, List.get?_map, List.get?_range hi]
  rfl

lemma init_new_eq (keccak : List Nat → ProofHash) (pc : PageCache) (mp : Multiproof) :
    MerkleProof.init keccak (MerkleProof.new pc mp) =
      some { tree := (specLeafBuild keccak leafAddresses pc mp).1
             page_cache := (specLeafBuild keccak leafAddresses pc mp).2.1
             multiproof := (specLeafBuild keccak leafAddresses pc mp).2.2 } := by
  unfold MerkleProof.init
  rw [initLoop_eq_spec]
  rfl

lemma calculate_root_run (keccak : List Nat → ProofHash) (pc : PageCache) (mp : Multiproof) :
    ∃ r s', MerkleProof.calculate_root keccak (MerkleProof.new pc mp) = some (r, s') ∧
      s'.tree.length = 1 ∧
      (∃ n, s'.page_cache.pages = pc.pages.take n) ∧
      (∃ q, s'.multiproof.hashes = mp.hashes.take q) ∧
      (∀ h, r = Except.ok h ↔ s'.tree.get? 0 = some (some h)) ∧
      (r = Except.error () ↔ s'.tree.get? 0 = some none) := by
  unfold MerkleProof.calculate_root
  rw [init_new_eq keccak pc mp]
  dsimp only
  have hlen1 : (specLeafBuild keccak leafAddresses pc mp).1.length = 8 := by
    rw [specLeafBuild_length]
    rfl
  rw [hlen1]
  obtain ⟨s2, hred, hlen2, hpc2, q2, hq2⟩ :=
    reduceLoop_pow2 keccak 3 8
      { tree := (specLeafBuild keccak leafAddresses pc mp).1
        page_cache := (specLeafBuild keccak leafAddresses pc mp).2.1
        multiproof := (specLeafBuild keccak leafAddresses pc mp).2.2 }
      (by rw [hlen1]; rfl) (by omega)
  rw [hred]
  dsimp only
  have hx0 : s2.tree.get? 0 = some (s2.tree.get ⟨0, by omega⟩) := List.get?_eq_get (by omega)
  obtain ⟨n0, hn0⟩ := specLeafBuild_pc_take keccak leafAddresses pc mp
  obtain ⟨m0, hm0⟩ := specLeafBuild_mp_take keccak leafAddresses pc mp
  have hpcfin : ∃ n, s2.page_cache.pages = pc.pages.take n := by
    refine ⟨n0, ?_⟩
    rw [hpc2]
    exact hn0
  have hmpfin : ∃ q, s2.multiproof.hashes = mp.hashes.take q := by
    refine ⟨Nat.min q2 m0, ?_⟩
    rw [hq2]
    dsimp only at hm0 ⊢
    rw [hm0, List.take_take]
  rw [hx0]
  cases hx : s2.tree.get ⟨0, by omega⟩ with
  | some h0 =>
    refine ⟨Except.ok h0, s2, rfl, hlen2, hpcfin, hmpfin, ?_, ?_⟩
    · intro h
      constructor
      · intro he
        cases he
        rw [hx0, hx]
      · intro hg
        rw [hx0, hx] at hg
        cases hg
        rfl
    · constructor
      · intro he
        cases he
      · intro hg
        rw [hx0, hx] at hg
        cases hg
  | none =>
    refine ⟨Except.error (), s2, rfl, hlen2, hpcfin, hmpfin, ?_, ?_⟩
    · intro h
      constructor
      · intro he
        cases he
      · intro hg
        rw [hx0, hx] at hg
        cases hg
    · constructor
      · intro _
        rw [hx0, hx]
      · intro _
        rfl

lemma calculate_root_second_none (keccak : List Nat → ProofHash) (s1 : MerkleProof)
    (hlen : s1.tree.length = 1) :
    MerkleProof.calculate_root keccak s1 = none ∧
      ∃ s2, MerkleProof.init keccak s1 = some s2 ∧ s2.tree.length = 9 ∧
        MerkleProof.bubble_up keccak s2 = none := by
  have hinit : MerkleProof.init keccak s1 =
      some { tree := s1.tree ++ (specLeafBuild keccak leafAddresses s1.page_cache s1.multiproof).1
             page_cache := (specLeafBuild keccak leafAddresses s1.page_cache s1.multiproof).2.1
             multiproof := (specLeafBuild keccak leafAddresses s1.page_cache s1.multiproof).2.2 } := by
    unfold MerkleProof.init
    rw [initLoop_eq_spec]
  have hlen9 : (s1.tree ++ (specLeafBuild keccak leafAddresses s1.page_cache s1.multiproof).1).length = 9 := by
    rw [List.length_append, hlen, specLeafBuild_length]
    rfl
  have hnine : MerkleProof.bubble_up keccak
      { tree := s1.tree ++ (specLeafBuild keccak leafAddresses s1.page_cache s1.multiproof).1
        page_cache := (specLeafBuild keccak leafAddresses s1.page_cache s1.multiproof).2.1
        multiproof := (specLeafBuild keccak leafAddresses s1.page_cache s1.multiproof).2.2 } = none :=
    bubble_up_nine_none keccak hlen9
  constructor
  · unfold MerkleProof.calculate_root
    rw [hinit]
    dsimp only
    rw [hlen9]
    have e9 : (9 : Nat) = 8 + 1 := rfl
    rw [e9, reduceLoop_succ, if_pos (by rw [hlen9]; omega), hnine]
  · exact ⟨_, hinit, hlen9, hnine⟩

/-! ## Claim theorems -/

/-- C1: for every page cache and multiproof, the leaf-build phase (init) scans
the leaf addresses 0, page_size, 2*page_size, ... ascending across the whole
region, never panics, and produces exactly region_size/page_size =
2^(MEMORY_LOG2_SIZE - PAGE_LOG2_SIZE) slots, where each slot is Known with the
cache's next page's hash when that page's address equals the scanned address,
else Known with the multiproof's next entry's hash when that entry's range is
exactly (addr, addr), else Unknown (none) -- the per-address rule captured by
specLeafBuild. -/
theorem C1_leaf_build (keccak : List Nat → ProofHash) (pc : PageCache) (mp : Multiproof) :
    ∃ s', MerkleProof.init keccak (MerkleProof.new pc mp) = some s' ∧
      s'.tree = (specLeafBuild keccak leafAddresses pc mp).1 ∧
      s'.tree.length = 2 ^ (MEMORY_LOG2_SIZE - PAGE_LOG2_SIZE) ∧
      leafAddresses = (List.range (2 ^ (MEMORY_LOG2_SIZE - PAGE_LOG2_SIZE))).map
        (fun i => i * (1 <<< PAGE_LOG2_SIZE)) := by
  refine ⟨_, init_new_eq keccak pc mp, rfl, ?_, by decide⟩
  show (specLeafBuild keccak leafAddresses pc mp).1.length =
    2 ^ (MEMORY_LOG2_SIZE - PAGE_LOG2_SIZE)
  rw [specLeafBuild_length]
  rfl

/-- C2: in every reduction step, a parent whose two children are both Known is
the single hash application keccak (left_hash ++ right_hash), lower-address
(even-index) child first, never the swapped order (the equation holds for
every hash function keccak, which pins the concatenation order). -/
theorem C2_merge_order (keccak : List Nat → ProofHash) (s s' : MerkleProof) (p : Nat)
    (lh rh : ProofHash)
    (hs : MerkleProof.bubble_up keccak s = some s')
    (hp : p < s.tree.length >>> 1)
    (hl : s.tree.get? (2 * p) = some (some lh))
    (hr : s.tree.get? (2 * p + 1) = some (some rh)) :
    s'.tree.get? p = some (some (MerkleProof.merge_hashes keccak lh rh)) ∧
      MerkleProof.merge_hashes keccak lh rh = keccak (lh ++ rh) := by
  rw [Nat.shiftRight_one] at hp
  unfold MerkleProof.bubble_up at hs
  rw [if_neg (by rw [Nat.shiftRight_one]; omega)] at hs
  cases hbl : MerkleProof.bubbleLoop keccak
      ((1 <<< MEMORY_LOG2_SIZE) / (s.tree.length >>> 1)) 0
      (Nat.min ((s.tree.length + 1) / 2) s.tree.length) s.tree s.multiproof with
  | none => rw [hbl] at hs; cases hs
  | some out =>
    obtain ⟨tree', mp'⟩ := out
    rw [hbl] at hs
    cases hs
    have hmin : p < 0 + Nat.min ((s.tree.length + 1) / 2) s.tree.length := by
      unfold Nat.min
      omega
    have hout := bubbleLoop_merge_out keccak _ _ 0 s.tree s.multiproof tree' mp' p lh rh
      hbl (Nat.zero_le p) hmin hl hr
    have hlen' : tree'.length = s.tree.length :=
      bubbleLoop_length keccak _ _ _ _ _ _ _ hbl
    refine ⟨?_, rfl⟩
    show (tree'.take (tree'.length >>> 1)).get? p = _
    rw [List.get?_take (by rw [hlen', Nat.shiftRight_one]; omega), hout]

/-- C2 witness: a concrete two-slot level with children [1] and [2] merges to
kW ([1] ++ [2]). -/
theorem C2_merge_order_witness :
    sW2'.tree.get? 0 = some (some (MerkleProof.merge_hashes kW [1] [2])) ∧
      MerkleProof.merge_hashes kW [1] [2] = kW ([1] ++ [2]) :=
  C2_merge_order kW sW2 sW2' 0 [1] [2] rfl (by decide) rfl rfl

/-- C3: in every reduction step, for a pair with at least one Unknown child,
the parent becomes Known with the multiproof's next entry's hash exactly when
that entry's range equals the parent's inclusive range
(w*entry_size, w*entry_size + entry_size - 1) (and the entry is consumed);
otherwise the parent is Unknown. The loop index w and entry_size are
arbitrary, so a multiproof entry can stand in for a subtree at any level. -/
theorem C3_multiproof_subtree (keccak : List Nat → ProofHash) (es w steps : Nat)
    (tree tree' : List (Option ProofHash)) (mp mp' : Multiproof) (lc rc : Option ProofHash)
    (hrun : MerkleProof.bubbleLoop keccak es w (steps + 1) tree mp = some (tree', mp'))
    (hl : tree.get? (2 * w) = some lc) (hr : tree.get? (2 * w + 1) = some rc)
    (hnone : lc = none ∨ rc = none) :
    (mp.has_next (w * es) (w * es + es - 1) = true →
      ∃ e mp2, mp.get_next = some (e, mp2) ∧ e.address_low = w * es ∧
        e.address_high = w * es + es - 1 ∧ tree'.get? w = some (some e.hash)) ∧
    (mp.has_next (w * es) (w * es + es - 1) = false →
      tree'.get? w = some none) := by
  rw [bubbleLoop_succ_mp keccak es w steps mp hl hr hnone] at hrun
  have hwlen : w < tree.length := by
    rcases Nat.lt_or_ge (2 * w) tree.length with hlt | hge
    · omega
    · rw [List.get?_eq_none.mpr hge] at hl
      simp at hl
  constructor
  · intro hn
    obtain ⟨e, he, h1, h2⟩ := Multiproof.has_next_matches hn
    rw [if_pos hn, Multiproof.get_next_getLast he] at hrun
    obtain ⟨hframe, -⟩ := bubbleLoop_invariants keccak es _ _ _ _ _ _ hrun
    refine ⟨e, ⟨mp.hashes.dropLast⟩, Multiproof.get_next_getLast he, h1, h2, ?_⟩
    rw [hframe w (by omega)]
    exact get?_set_self _ hwlen
  · intro hn
    rw [hn] at hrun
    simp only [Bool.false_eq_true, if_false] at hrun
    obtain ⟨hframe, -⟩ := bubbleLoop_invariants keccak es _ _ _ _ _ _ hrun
    rw [hframe w (by omega)]
    exact get?_set_self _ hwlen

/-- C3 witness: a pair (Unknown, Known) at w = 0 with entry_size 8 takes the
multiproof entry for the exact parent range (0, 7). -/
theorem C3_multiproof_subtree_witness :
    ∃ e mp2, mpW3.get_next = some (e, mp2) ∧ e.address_low = 0 * 8 ∧
      e.address_high = 0 * 8 + 8 - 1 ∧
      ([some [42], some [1]] : List (Option ProofHash)).get? 0 = some (some e.hash) :=
  (C3_multiproof_subtree kW 8 0 0 treeW3 [some [42], some [1]] mpW3 ⟨[]⟩ none (some [1])
    rfl rfl rfl (Or.inl rfl)).1 rfl

/-- C4: for every input, calculate_root on a fresh MerkleProof returns a
result (no panic); the final level has exactly one slot, the result is
Ok h iff that slot is Known h and Err (the IncompleteProof signal, the
only failure outcome of Result<ProofHash, ()>) iff that slot is Unknown. -/
theorem C4_root_result (keccak : List Nat → ProofHash) (pc : PageCache) (mp : Multiproof) :
    ∃ r s', MerkleProof.calculate_root keccak (MerkleProof.new pc mp) = some (r, s') ∧
      s'.tree.length = 1 ∧
      (∀ h, r = Except.ok h ↔ s'.tree.get? 0 = some (some h)) ∧
      (r = Except.error () ↔ s'.tree.get? 0 = some none) := by
  obtain ⟨r, s', h1, h2, -, -, h5, h6⟩ := calculate_root_run keccak pc mp
  exact ⟨r, s', h1, h2, h5, h6⟩

/-- C5: for every list of pages covering all leaf addresses (the sorted cache
lists the addresses 28, 24, ..., 0, i.e. the reversed scan order), the root
computed with those pages in the cache and an empty multiproof equals the
root computed with an empty cache and a multiproof supplying, for each leaf
address in scan-consumption order, an entry (a, a) carrying that page's data
hash: cache and multiproof are interchangeable per-leaf data sources. -/
theorem C5_cache_multiproof_interchangeable (keccak : List Nat → ProofHash)
    (pages : List Page)
    (hcover : (PageCache.new pages).pages.map (fun p => p.address) = leafAddresses.reverse) :
    MerkleProof.calculate_root keccak (MerkleProof.new (PageCache.new pages) ⟨[]⟩) =
      MerkleProof.calculate_root keccak (MerkleProof.new ⟨[]⟩
        ⟨(PageCache.new pages).pages.map
          (fun p => ⟨p.address, p.address, Page.hash keccak p⟩)⟩) := by
  rcases hE : PageCache.new pages with ⟨ps⟩
  rw [hE] at hcover
  have hcover' : ps.map (fun p => p.address) = leafAddresses.reverse := hcover
  have hrs : ps.reverse.map (fun p => p.address) = leafAddresses := by
    rw [List.map_reverse, hcover', List.reverse_reverse]
  have h1 : specLeafBuild keccak leafAddresses ⟨ps⟩ ⟨[]⟩ =
      (ps.reverse.map (fun p => some (Page.hash keccak p)), ⟨[]⟩, ⟨[]⟩) := by
    have hx := specLeafBuild_cache_cover keccak leafAddresses ps.reverse hrs
    rwa [List.reverse_reverse] at hx
  have h2 : specLeafBuild keccak leafAddresses ⟨[]⟩
      ⟨ps.map (fun p => ⟨p.address, p.address, Page.hash keccak p⟩)⟩ =
      (ps.reverse.map (fun p => some (Page.hash keccak p)), ⟨[]⟩, ⟨[]⟩) := by
    have hx := specLeafBuild_mp_cover keccak leafAddresses ps.reverse hrs
    rwa [List.map_reverse, List.reverse_reverse] at hx
  unfold MerkleProof.calculate_root
  rw [init_new_eq keccak ⟨ps⟩ ⟨[]⟩,
    init_new_eq keccak ⟨[]⟩ ⟨ps.map (fun p => ⟨p.address, p.address, Page.hash keccak p⟩)⟩,
    h1, h2]

/-- C5 witness: eight concrete pages in scrambled order cover all leaf
addresses; the hypothesis and the conclusion are both evaluated. -/
theorem C5_witness :
    ((PageCache.new pagesW).pages.map (fun p => p.address) = leafAddresses.reverse) ∧
      MerkleProof.calculate_root kW (MerkleProof.new (PageCache.new pagesW) ⟨[]⟩) =
        MerkleProof.calculate_root kW (MerkleProof.new ⟨[]⟩
          ⟨(PageCache.new pagesW).pages.map
            (fun p => ⟨p.address, p.address, Page.hash kW p⟩)⟩) :=
  ⟨by decide, C5_cache_multiproof_interchangeable kW pagesW (by decide)⟩

/-- C6: if a leaf address i * page_size is covered by no cached page and no
multiproof entry's range contains it (so the corresponding tree range is
absent from both sources at every level), calculate_root fails with
IncompleteProof (Err): it never returns a partially derived root. -/
theorem C6_gap_incomplete (keccak : List Nat → ProofHash) (pc : PageCache) (mp : Multiproof)
    (i : Nat) (hi : i < (1 <<< MEMORY_LOG2_SIZE) / (1 <<< PAGE_LOG2_SIZE))
    (hpc : ∀ p ∈ pc.pages, p.address ≠ i * (1 <<< PAGE_LOG2_SIZE))
    (hmp : ∀ e ∈ mp.hashes, ¬(e.address_low ≤ i * (1 <<< PAGE_LOG2_SIZE) ∧
        i * (1 <<< PAGE_LOG2_SIZE) ≤ e.address_high)) :
    ∃ s', MerkleProof.calculate_root keccak (MerkleProof.new pc mp) =
      some (Except.error (), s') := by
  have h8 : (1 <<< MEMORY_LOG2_SIZE) / (1 <<< PAGE_LOG2_SIZE) = 8 := rfl
  have h4 : (1 <<< PAGE_LOG2_SIZE) = 4 := rfl
  rw [h8] at hi
  rw [h4] at hpc hmp
  have hslot : (specLeafBuild keccak leafAddresses pc mp).1.get? i = some none := by
    refine specLeafBuild_get_none keccak leafAddresses pc mp i (i * 4) ?_ hpc ?_
    · rw [leafAddresses_get? hi, h4]
    · intro e he hand
      exact hmp e he ⟨by omega, by omega⟩
  have hmp4 : ∀ e ∈ (specLeafBuild keccak leafAddresses pc mp).2.2.hashes,
      ¬(e.address_low ≤ 4 * i ∧ 4 * i ≤ e.address_high) := by
    intro e he hand
    obtain ⟨m0, hm0⟩ := specLeafBuild_mp_take keccak leafAddresses pc mp
    rw [hm0] at he
    exact hmp e (List.take_subset _ _ he) ⟨by omega, by omega⟩
  unfold MerkleProof.calculate_root
  rw [init_new_eq keccak pc mp]
  dsimp only
  have hlen1 : (specLeafBuild keccak leafAddresses pc mp).1.length = 8 := by
    rw [specLeafBuild_length]
    rfl
  rw [hlen1]
  obtain ⟨s', hred, hslot0, -⟩ :=
    reduceLoop_c6_chain keccak hi
      { tree := (specLeafBuild keccak leafAddresses pc mp).1
        page_cache := (specLeafBuild keccak leafAddresses pc mp).2.1
        multiproof := (specLeafBuild keccak leafAddresses pc mp).2.2 }
      8 (by omega) hlen1 hslot hmp4
  rw [hred]
  dsimp only
  rw [hslot0]
  exact ⟨s', rfl⟩

/-- C6 witness: with both sources empty, leaf 0 is covered by neither, and
the computation fails with the incompleteness signal. -/
theorem C6_gap_incomplete_witness :
    (0 < (1 <<< MEMORY_LOG2_SIZE) / (1 <<< PAGE_LOG2_SIZE)) ∧
      ∃ s', MerkleProof.calculate_root kW (MerkleProof.new ⟨[]⟩ ⟨[]⟩) =
        some (Except.error (), s') :=
  ⟨by decide, C6_gap_incomplete kW ⟨[]⟩ ⟨[]⟩ 0 (by decide)
    (fun p hp => absurd hp (List.not_mem_nil p))
    (fun e he => absurd he (List.not_mem_nil e))⟩

/-- C7 counterexample: a cache holding one page at the unaligned address 2 is
never matched by the scan; after calculate_root returns, the page cache still
holds that page, so the owned inputs are not fully drained for every input. -/
theorem C7_counterexample :
    ((MerkleProof.calculate_root kW (MerkleProof.new (PageCache.new [pageCex]) ⟨[]⟩)).map
        (fun z => (z.2.page_cache.pages, z.2.multiproof.hashes))) = some ([pageCex], []) ∧
      [pageCex] ≠ ([] : List Page) := by
  constructor
  · rfl
  · simp

/-- C7 amended: calculate_root consumes both sources only from the pop end:
after it returns, the remaining pages and entries are a storage-order front
segment (take) of the originals, and when every supplied element is matched
by the scan -- e.g. a cache covering all leaf addresses with an empty
multiproof -- both sources are fully drained; misordered or excessive
elements remain un-consumed. -/
theorem C7_drain_amended :
    (∀ (keccak : List Nat → ProofHash) (pc : PageCache) (mp : Multiproof),
      ∃ r s', MerkleProof.calculate_root keccak (MerkleProof.new pc mp) = some (r, s') ∧
        (∃ n, s'.page_cache.pages = pc.pages.take n) ∧
        (∃ q, s'.multiproof.hashes = mp.hashes.take q)) ∧
    (∀ (keccak : List Nat → ProofHash) (pages : List Page),
      (PageCache.new pages).pages.map (fun p => p.address) = leafAddresses.reverse →
      ∃ r s', MerkleProof.calculate_root keccak
          (MerkleProof.new (PageCache.new pages) ⟨[]⟩) = some (r, s') ∧
        s'.page_cache.pages = [] ∧ s'.multiproof.hashes = []) := by
  constructor
  · intro keccak pc mp
    obtain ⟨r, s', h1, -, h3, h4, -⟩ := calculate_root_run keccak pc mp
    exact ⟨r, s', h1, h3, h4⟩
  · intro keccak pages hcover
    rcases hE : PageCache.new pages with ⟨ps⟩
    rw [hE] at hcover
    have hrs : ps.reverse.map (fun p => p.address) = leafAddresses := by
      rw [List.map_reverse, hcover, List.reverse_reverse]
    have h1 : specLeafBuild keccak leafAddresses ⟨ps⟩ ⟨[]⟩ =
        (ps.reverse.map (fun p => some (Page.hash keccak p)), ⟨[]⟩, ⟨[]⟩) := by
      have hx := specLeafBuild_cache_cover keccak leafAddresses ps.reverse hrs
      rwa [List.reverse_reverse] at hx
    unfold MerkleProof.calculate_root
    rw [init_new_eq keccak ⟨ps⟩ ⟨[]⟩, h1]
    dsimp only
    have hps8 : ps.length = 8 := by
      have hlc := congrArg List.length hcover
      rw [List.length_map] at hlc
      rw [hlc]
      rfl
    have hlen1 : (ps.reverse.map (fun p => some (Page.hash keccak p))).length = 8 := by
      rw [List.length_map, List.length_reverse, hps8]
    rw [hlen1]
    obtain ⟨s2, hred, hlen2, hpc2, q2, hq2⟩ :=
      reduceLoop_pow2 keccak 3 8
        { tree := ps.reverse.map (fun p => some (Page.hash keccak p))
          page_cache := ⟨[]⟩, multiproof := ⟨[]⟩ }
        (by rw [hlen1]; rfl) (by omega)
    rw [hred]
    dsimp only
    have hempty : s2.page_cache.pages = [] ∧ s2.multiproof.hashes = [] := by
      constructor
      · rw [hpc2]
      · rw [hq2, List.take_nil]
    have hx0 : s2.tree.get? 0 = some (s2.tree.get ⟨0, by omega⟩) :=
      List.get?_eq_get (by omega)
    rw [hx0]
    cases s2.tree.get ⟨0, by omega⟩ with
    | some h0 => exact ⟨Except.ok h0, s2, rfl, hempty.1, hempty.2⟩
    | none => exact ⟨Except.error (), s2, rfl, hempty.1, hempty.2⟩

/-- C7 witness: the eight covering pages are fully drained. -/
theorem C7_drain_amended_witness :
    ((PageCache.new pagesW).pages.map (fun p => p.address) = leafAddresses.reverse) ∧
      ∃ r s', MerkleProof.calculate_root kW
          (MerkleProof.new (PageCache.new pagesW) ⟨[]⟩) = some (r, s') ∧
        s'.page_cache.pages = [] ∧ s'.multiproof.hashes = [] :=
  ⟨by decide, C7_drain_amended.2 kW pagesW (by decide)⟩

/-- C8: for every page-cache and multiproof contents, the first call to
calculate_root on a freshly constructed MerkleProof terminates without
panicking: init succeeds with exactly 2^(MEMORY_LOG2_SIZE - PAGE_LOG2_SIZE)
leaf slots and the whole computation returns a value (every sibling read is
in bounds, tree[0] exists, and every unwrap is guarded). -/
theorem C8_first_call_no_panic (keccak : List Nat → ProofHash) (pc : PageCache)
    (mp : Multiproof) :
    ∃ s1 r s', MerkleProof.init keccak (MerkleProof.new pc mp) = some s1 ∧
      s1.tree.length = 2 ^ (MEMORY_LOG2_SIZE - PAGE_LOG2_SIZE) ∧
      MerkleProof.calculate_root keccak (MerkleProof.new pc mp) = some (r, s') := by
  obtain ⟨r, s', h1, -⟩ := calculate_root_run keccak pc mp
  refine ⟨_, r, s', init_new_eq keccak pc mp, ?_, h1⟩
  show (specLeafBuild keccak leafAddresses pc mp).1.length =
    2 ^ (MEMORY_LOG2_SIZE - PAGE_LOG2_SIZE)
  rw [specLeafBuild_length]
  rfl

/-- C9: after calculate_root has returned once, a second call panics: init
appends the 2^(MEMORY_LOG2_SIZE - PAGE_LOG2_SIZE) leaf slots after the single
retained root slot, producing an odd-length (9-slot) level, and bubble_up
then reads the sibling index tree[r + 1] out of bounds (modelled none). -/
theorem C9_second_call_panics (keccak : List Nat → ProofHash) (pc : PageCache)
    (mp : Multiproof) (r1 : Except Unit ProofHash) (s1 : MerkleProof)
    (h : MerkleProof.calculate_root keccak (MerkleProof.new pc mp) = some (r1, s1)) :
    MerkleProof.calculate_root keccak s1 = none ∧
      ∃ s2, MerkleProof.init keccak s1 = some s2 ∧
        s2.tree.length = 1 + 2 ^ (MEMORY_LOG2_SIZE - PAGE_LOG2_SIZE) ∧
        MerkleProof.bubble_up keccak s2 = none := by
  obtain ⟨r', s'', h', hlen, -⟩ := calculate_root_run keccak pc mp
  rw [h] at h'
  have hpair : r1 = r' ∧ s1 = s'' := by
    have hx := Option.some.inj h'
    exact ⟨congrArg Prod.fst hx, congrArg Prod.snd hx⟩
  obtain ⟨rfl, rfl⟩ := hpair
  obtain ⟨hnone, s2, hinit, hlen9, hbub⟩ := calculate_root_second_none keccak s1 hlen
  exact ⟨hnone, s2, hinit, by rw [hlen9]; rfl, hbub⟩

/-- C9 witness: the empty-input run returns the retained one-slot state, on
which the second call panics. -/
theorem C9_second_call_panics_witness :
    MerkleProof.calculate_root kW ⟨[none], ⟨[]⟩, ⟨[]⟩⟩ = none ∧
      ∃ s2, MerkleProof.init kW ⟨[none], ⟨[]⟩, ⟨[]⟩⟩ = some s2 ∧
        s2.tree.length = 1 + 2 ^ (MEMORY_LOG2_SIZE - PAGE_LOG2_SIZE) ∧
        MerkleProof.bubble_up kW s2 = none :=
  C9_second_call_panics kW ⟨[]⟩ ⟨[]⟩ (Except.error ()) ⟨[none], ⟨[]⟩, ⟨[]⟩⟩ rfl

/-- C10: the Multiproof performs no sorting or validation: has_next reports a
match against exactly the last-stored (next-to-pop) entry, get_next removes
exactly the last-stored entry (so the next-available entry is the one
supplied last, and matching entries must be listed in reverse scan order),
and throughout a whole calculate_root run the remaining entries are a
storage-order front segment of the supplied vector: an entry that is not at
the end when its range is queried is never consumed. -/
theorem C10_consume_from_end :
    (∀ (entries : List MultiproofEntry) (lo hi : Nat),
      Multiproof.has_next ⟨entries⟩ lo hi = true ↔
        ∃ e, entries.getLast? = some e ∧ e.address_low = lo ∧ e.address_high = hi) ∧
    (∀ (mp : Multiproof) (e : MultiproofEntry) (mp' : Multiproof),
      mp.get_next = some (e, mp') → mp.hashes = mp'.hashes ++ [e]) ∧
    (∀ (keccak : List Nat → ProofHash) (pc : PageCache) (mp : Multiproof)
      (r : Except Unit ProofHash) (s' : MerkleProof),
      MerkleProof.calculate_root keccak (MerkleProof.new pc mp) = some (r, s') →
      ∃ q, s'.multiproof.hashes = mp.hashes.take q) := by
  refine ⟨fun entries lo hi => Multiproof.has_next_iff,
    fun mp e mp' h => Multiproof.get_next_some h, ?_⟩
  intro keccak pc mp r s' h
  obtain ⟨r', s'', h', -, -, hq, -⟩ := calculate_root_run keccak pc mp
  rw [h] at h'
  have hx := Option.some.inj h'
  rw [show s' = s'' from congrArg Prod.snd hx]
  exact hq

/-- C10 witness: popping from a two-entry multiproof removes exactly the
last-stored entry. -/
theorem C10_consume_from_end_witness :
    (⟨[entryA, entryB]⟩ : Multiproof).hashes =
      (⟨[entryA]⟩ : Multiproof).hashes ++ [entryB] :=
  C10_consume_from_end.2.1 ⟨[entryA, entryB]⟩ entryB ⟨[entryA]⟩ rfl
